import Mathlib

/-!
Verification development for `UML_diagram.py`.

The Python program walks parsed abstract syntax trees with an
`ImportVisitor` (accumulating a dependency graph, a class-name-to-ordinal
map, an inheritance map, an import map and an attribute-usage map) and
then serializes the result with `DependencyDotGenerator` into a textual
DOT graph description.

Shallow embedding conventions:
* Python `dict`s (which preserve insertion order and have unique keys)
  are modelled as association lists with `alistLookup` / `alistUpsert`;
  `alistUpsert` replaces the value at the first matching key in place,
  exactly like a Python dict assignment, and appends a new entry
  otherwise.
* Python `set`s are modelled as duplicate-free lists built with
  `setInsert` (insertion order stands in for the unspecified hash order;
  every claim proved below about set contents is order-independent).
* Python `str(n)` on a non-negative integer is modelled by `natRepr`,
  the usual decimal representation.
* Python string methods `islower` / `isupper` are modelled for ASCII
  identifiers: at least one cased character and no cased character of
  the opposite case.
* `ImportVisitor.visit` is modelled as a state-transition function on
  `VisitorState`; a whole run is a left fold over a list of visited
  nodes.  The driver's assignment to `cur_module_name` between files is
  modelled as the node kind `Node.setModule`.
* File writes in the renderer are modelled by returning the list of
  written strings.  `print_relations` can raise a `KeyError` in Python
  when a derived class is missing from the ordinal map; this is
  modelled by an `Option` result (`none` = the run aborts with an
  exception).
-/

namespace UMLDiagram

/-- Lookup in an association list (model of Python dict indexing). -/
def alistLookup {α β : Type} [DecidableEq α] (k : α) : List (α × β) → Option β
  | [] => none
  | p :: t => if p.1 = k then some p.2 else alistLookup k t

/-- Insert-or-replace in an association list (model of Python dict
assignment: replaces the value at the first matching key in place,
appends a fresh entry otherwise). -/
def alistUpsert {α β : Type} [DecidableEq α] (k : α) (v : β) : List (α × β) → List (α × β)
  | [] => [(k, v)]
  | p :: t => if p.1 = k then (k, v) :: t else p :: alistUpsert k v t

/-- Add an element to a Python-set-as-list, keeping it duplicate free. -/
def setInsert (l : List String) (x : String) : List String :=
  if x ∈ l then l else l ++ [x]

/-- The set of elements of a list, as a duplicate-free list. -/
def setOfList (l : List String) : List String :=
  l.foldl setInsert []

/-- One decimal digit character, as produced by Python `str` on an
integer. -/
def digitChar : Nat → Char
  | 0 => '0'
  | 1 => '1'
  | 2 => '2'
  | 3 => '3'
  | 4 => '4'
  | 5 => '5'
  | 6 => '6'
  | 7 => '7'
  | 8 => '8'
  | _ => '9'

/-- Decimal digits, fuel-based so that the kernel can evaluate it
(the fuel argument strictly dominates the number of divisions by 10). -/
def natDigitsAux : Nat → Nat → List Nat
  | 0, n => [n]
  | fuel+1, n => if n < 10 then [n] else natDigitsAux fuel (n / 10) ++ [n % 10]

/-- Decimal digits of a natural number, most significant first. -/
def natDigits (n : Nat) : List Nat :=
  natDigitsAux n n

/-- Model of Python `str(n)` for a non-negative integer: the decimal
representation. -/
def natRepr (n : Nat) : String :=
  String.mk ((natDigits n).map digitChar)

/-- An ASCII lowercase letter. -/
def isLowerAlpha (ch : Char) : Bool :=
  decide ('a' ≤ ch) && decide (ch ≤ 'z')

/-- An ASCII uppercase letter. -/
def isUpperAlpha (ch : Char) : Bool :=
  decide ('A' ≤ ch) && decide (ch ≤ 'Z')

/-- An ASCII cased character. -/
def isCasedChar (ch : Char) : Bool :=
  isLowerAlpha ch || isUpperAlpha ch

/-- Model of Python `str.islower` on ASCII identifiers: at least one
cased character and no uppercase character. -/
def pyIsLower (s : String) : Bool :=
  s.data.any isCasedChar && s.data.all (fun ch => !(isUpperAlpha ch))

/-- Model of Python `str.isupper` on ASCII identifiers: at least one
cased character and no lowercase character. -/
def pyIsUpper (s : String) : Bool :=
  s.data.any isCasedChar && s.data.all (fun ch => !(isLowerAlpha ch))

/-- Model of Python `str.startswith`: the first argument starts with
the second. -/
def strStartsWith (s pre : String) : Bool :=
  pre.data.isPrefixOf s.data

/-- A base-class expression of a class declaration.  `named` is an
`ast.Name` (it has an `id` attribute); `complexExpr` is any other base
expression, carrying the attribute-access names occurring inside it
(those are seen by `ast.walk` over the class node). -/
inductive BaseExpr where
  | named (id : String)
  | complexExpr (attrs : List String)
deriving DecidableEq

/-- A statement in a class body.  `funcDef` is an `ast.FunctionDef`;
`stmt` is any other statement.  Either carries the list of
attribute-access nodes in its subtree, in syntactic order, each tagged
with whether the access target is the bare name `self`. -/
inductive ClassItem where
  | funcDef (name : String) (attrs : List (Bool × String))
  | stmt (attrs : List (Bool × String))
deriving DecidableEq

/-- An `ast.ClassDef` node, restricted to the parts the program reads:
its name, its base expressions, and its body statements. -/
structure ClassDef where
  name : String
  bases : List BaseExpr
  body : List ClassItem
deriving DecidableEq

/-- A visited syntax-tree node, restricted to the node kinds
`ImportVisitor.visit` dispatches on.  `importFrom` carries the name of
the first alias (`node.names[0].name`, always present in a well-formed
tree) plus the remaining alias names; `setModule` models the driver's
assignment to `cur_module_name` between files; `otherNode` is any node
kind the visitor ignores. -/
inductive Node where
  | importFrom (name0 : String) (restNames : List String)
  | classNode (c : ClassDef)
  | attributeNode (attr : String)
  | setModule (m : String)
  | otherNode
deriving DecidableEq

/-- The mutable state of `ImportVisitor`, field for field. -/
structure VisitorState where
  depgraph : List (Option String × List String)
  package_name : String
  cur_module_name : Option String
  counter : Nat
  num_to_class : List (String × Nat)
  depgRelation : List (String × String)
  verb_list : List (Int × List String)
  import_relation : List (Nat × List String)
deriving DecidableEq

/-- `ImportVisitor.__init__`. -/
def initState (package_name : String) : VisitorState :=
  { depgraph := []
    package_name := package_name
    cur_module_name := none
    counter := 0
    num_to_class := []
    depgRelation := []
    verb_list := []
    import_relation := [] }

/-- The method names of a class body, in order
(`[n.name for n in node.body if isinstance(n, ast.FunctionDef)]`). -/
def methodNames (node : ClassDef) : List String :=
  node.body.filterMap (fun it =>
    match it with
    | .funcDef nm _ => some nm
    | .stmt _ => none)

/-- All attribute-access names in the subtree of a class-declaration
node, as seen by `ast.walk(node)` (base expressions and every body
statement included, regardless of the access target). -/
def classWalkAttrs (node : ClassDef) : List String :=
  (node.bases.flatMap (fun b =>
    match b with
    | .named _ => []
    | .complexExpr attrs => attrs))
  ++ node.body.flatMap (fun it =>
    match it with
    | .funcDef _ attrs => attrs.map Prod.snd
    | .stmt attrs => attrs.map Prod.snd)

/-- The set comprehension in `ImportVisitor.class_info`:
all attribute names in `ast.walk(node)` that start with exactly one
underscore, collected into a set. -/
def initAttrSet (node : ClassDef) : List String :=
  setOfList ((classWalkAttrs node).filter
    (fun a => strStartsWith a "_" && !(strStartsWith a "__")))

/-- The node-label string `atr_list` built by
`ImportVisitor.class_info` for the class visited at a given value of
the ordinal counter. -/
def class_label (counter : Nat) (node : ClassDef) : String :=
  let start := "\"" ++ natRepr counter ++ "\" [label=\"\x7b" ++ node.name ++ "| "
  let withBody := (methodNames node).foldl
    (fun atr_list method =>
      if method = "__init__" then
        ((initAttrSet node).foldl (fun acc a => acc ++ a ++ "\\l") atr_list) ++ "| "
      else if strStartsWith method "__" then
        atr_list
      else
        atr_list ++ method ++ "()\\l")
    start
  withBody ++ "\x7d\", shape=\"record\"]"

/-- `ImportVisitor.add_dependency`: `setdefault(cur_module_name,
set()).add(depend_module)`. -/
def add_dependency (s : VisitorState) (depend_module : String) : VisitorState :=
  { s with depgraph :=
      match alistLookup s.cur_module_name s.depgraph with
      | some lst => alistUpsert s.cur_module_name (setInsert lst depend_module) s.depgraph
      | none => s.depgraph ++ [(s.cur_module_name, [depend_module])] }

/-- `ImportVisitor.import_info`, applied to the first alias name of an
import-from node. -/
def import_info (s : VisitorState) (name0 : String) : VisitorState :=
  if strStartsWith name0 "Q" || pyIsLower name0 || pyIsUpper name0 || name0 == "*" then s
  else
    let vlist := (alistLookup s.counter s.import_relation).getD []
    if name0 ∈ vlist then s
    else { s with import_relation := alistUpsert s.counter (vlist ++ [name0]) s.import_relation }

/-- The simple-name base identifiers of a class declaration
(`[n.id for n in node.bases if hasattr(n, 'id')]`). -/
def simpleBaseIds (node : ClassDef) : List String :=
  node.bases.filterMap (fun b =>
    match b with
    | .named id => some id
    | .complexExpr _ => none)

/-- `ImportVisitor.class_info`, in the source's statement order:
build the label, record the name-to-ordinal entry, add the label to
the dependency graph, initialize the attribute-usage entry, advance
the counter, then record each simple-name base (overwriting). -/
def class_info (s : VisitorState) (node : ClassDef) : VisitorState :=
  let atr_list := class_label s.counter node
  let s1 := { s with num_to_class := alistUpsert node.name s.counter s.num_to_class }
  let s2 := add_dependency s1 atr_list
  let s3 := { s2 with verb_list := alistUpsert ((s.counter : Int)) ([] : List String) s2.verb_list }
  let s4 := { s3 with counter := s3.counter + 1 }
  (simpleBaseIds node).foldl
    (fun st idv => { st with depgRelation := alistUpsert node.name idv st.depgRelation }) s4

/-- `ImportVisitor.attribute_info`: record the attribute name under
key `counter - 1` (an integer key, `-1` when no class has been seen),
deduplicating within the list. -/
def attribute_info (s : VisitorState) (attr : String) : VisitorState :=
  let key : Int := (s.counter : Int) - 1
  let v_list := (alistLookup key s.verb_list).getD []
  if attr ∈ v_list then s
  else { s with verb_list := alistUpsert key (v_list ++ [attr]) s.verb_list }

/-- `ImportVisitor.visit`: dispatch on the node kind. -/
def visit (s : VisitorState) (node : Node) : VisitorState :=
  match node with
  | .importFrom name0 _ => import_info s name0
  | .classNode c => class_info s c
  | .attributeNode a => attribute_info s a
  | .setModule m => { s with cur_module_name := some m }
  | .otherNode => s

/-- A whole visitor run over a sequence of visited nodes. -/
def runVisitor (package_name : String) (ns : List Node) : VisitorState :=
  ns.foldl visit (initState package_name)

/-- The number of class-declaration nodes in a visited sequence. -/
def countClass (ns : List Node) : Nat :=
  ns.countP (fun n => match n with | .classNode _ => true | _ => false)

/-- `DependencyDotGenerator.fix`: `s.split('.')[-1]`. -/
def fix (s : String) : String :=
  match (s.splitOn ".").getLast? with
  | some t => t
  | none => s

/-- `DependencyDotGenerator.print_classes`: the node lines written, in
order. -/
def print_classes (dependencies : List (Option String × List String)) : List String :=
  dependencies.foldl (fun acc p => p.2.foldl (fun acc2 d => acc2 ++ [fix d ++ ";\n"]) acc) []

/-- One edge line, as formatted by `print_relations` and
`print_imp_relations` (both use the same format string, hence the same
arrow style). -/
def edgeLine (a b : Nat) : String :=
  "\"" ++ natRepr a ++ "\" -> \"" ++ natRepr b ++ "\" [arrowhead=\"empty\", arrowtail=\"none\"];\n"

/-- `DependencyDotGenerator.print_relations`: the inheritance-edge
lines written, in order.  An entry whose base (`take`) is not in the
ordinal map is skipped; an entry whose base is in the map but whose
derived name (`give`) is not raises a Python `KeyError`, modelled by
`none`. -/
def print_relations (relation : List (String × String)) (order : List (String × Nat)) :
    Option (List String) :=
  relation.foldl (fun acc p =>
    match acc with
    | none => none
    | some lines =>
      match alistLookup p.2 order with
      | none => some lines
      | some tn =>
        match alistLookup p.1 order with
        | none => none
        | some gn => some (lines ++ [edgeLine gn tn]))
    (some [])

/-- `DependencyDotGenerator.print_imp_relations`: the import-edge
lines written, in order.  Each imported name found in the ordinal map
yields an edge from that name's ordinal to the importing key. -/
def print_imp_relations (relation : List (Nat × List String)) (order : List (String × Nat)) :
    List String :=
  relation.foldl (fun acc p =>
    p.2.foldl (fun acc2 item =>
      match alistLookup item order with
      | some o => acc2 ++ [edgeLine o p.1]
      | none => acc2) acc) []

/-- Concatenation of a list of written strings into the file content. -/
def strConcat (l : List String) : String :=
  l.foldl (fun a b => a ++ b) ""

/-- `DependencyDotGenerator.render`: the full textual graph
description written to the output stream, or `none` when
`print_relations` raises. -/
def render (dependencies : List (Option String × List String)) (order : List (String × Nat))
    (relation : List (String × String)) (imp_relations : List (Nat × List String)) :
    Option String :=
  match print_relations relation order with
  | none => none
  | some relLines =>
    some ("digraph G \x7b\n" ++ "ranksep=1.0;\n"
      ++ "node [style=filled,fontname=Helvetica,fontsize=10];\n"
      ++ strConcat (print_classes dependencies)
      ++ strConcat relLines
      ++ strConcat (print_imp_relations imp_relations order)
      ++ "\x7d\n")

/-! ### Association-list lemmas -/

theorem alistLookup_upsert_self {α β : Type} [DecidableEq α] (k : α) (v : β) :
    ∀ l : List (α × β), alistLookup k (alistUpsert k v l) = some v := by
  intro l
  induction l with
  | nil => simp [alistUpsert, alistLookup]
  | cons p t ih =>
    by_cases h : p.1 = k
    · simp [alistUpsert, h, alistLookup]
    · simp [alistUpsert, h, alistLookup, ih]

theorem alistLookup_upsert_ne {α β : Type} [DecidableEq α] (k k2 : α) (v : β)
    (hne : k2 ≠ k) :
    ∀ l : List (α × β), alistLookup k2 (alistUpsert k v l) = alistLookup k2 l := by
  intro l
  induction l with
  | nil => simp [alistUpsert, alistLookup, Ne.symm hne]
  | cons p t ih =>
    by_cases h : p.1 = k
    · simp [alistUpsert, h, alistLookup, hne, Ne.symm hne]
    · simp [alistUpsert, h, alistLookup, ih]

theorem mem_alistUpsert {α β : Type} [DecidableEq α] {k : α} {v : β} :
    ∀ {l : List (α × β)} {q : α × β}, q ∈ alistUpsert k v l → q = (k, v) ∨ q ∈ l := by
  intro l
  induction l with
  | nil => intro q hq; simp [alistUpsert] at hq; exact Or.inl hq
  | cons p t ih =>
    intro q hq
    by_cases h : p.1 = k
    · simp [alistUpsert, h] at hq
      rcases hq with hq | hq
      · exact Or.inl hq
      · exact Or.inr (List.mem_cons_of_mem _ hq)
    · simp [alistUpsert, h] at hq
      rcases hq with hq | hq
      · subst hq; exact Or.inr (List.mem_cons_self _ _)
      · rcases ih hq with hq2 | hq2
        · exact Or.inl hq2
        · exact Or.inr (List.mem_cons_of_mem _ hq2)

theorem alistLookup_mem {α β : Type} [DecidableEq α] {k : α} {v : β} :
    ∀ {l : List (α × β)}, alistLookup k l = some v → (k, v) ∈ l := by
  intro l
  induction l with
  | nil => intro h; simp [alistLookup] at h
  | cons p t ih =>
    intro h
    by_cases hp : p.1 = k
    · simp [alistLookup, hp] at h
      have : p = (k, v) := by
        cases p
        simp_all
      exact this ▸ List.mem_cons_self p t
    · simp [alistLookup, hp] at h
      exact List.mem_cons_of_mem _ (ih h)

theorem alistUpsert_map_fst {α β : Type} [DecidableEq α] (k : α) (v : β) :
    ∀ l : List (α × β), (alistUpsert k v l).map Prod.fst =
      if k ∈ l.map Prod.fst then l.map Prod.fst else l.map Prod.fst ++ [k] := by
  intro l
  induction l with
  | nil => simp [alistUpsert]
  | cons p t ih =>
    by_cases h : p.1 = k
    · simp [alistUpsert, h]
    · simp only [alistUpsert, if_neg h, List.map_cons, ih]
      by_cases hk : k ∈ t.map Prod.fst
      · simp [hk, Ne.symm h]
      · simp [hk, Ne.symm h]

theorem alistUpsert_fst_nodup {α β : Type} [DecidableEq α] (k : α) (v : β)
    (l : List (α × β)) (h : (l.map Prod.fst).Nodup) :
    ((alistUpsert k v l).map Prod.fst).Nodup := by
  rw [alistUpsert_map_fst]
  by_cases hk : k ∈ l.map Prod.fst
  · simpa [hk]
  · simp only [if_neg hk]
    simp [List.nodup_append, h, hk]

theorem alistUpsert_snd_nodup {α β : Type} [DecidableEq α] (k : α) (v : β) :
    ∀ l : List (α × β), ((l.map Prod.snd).Nodup) → (∀ p ∈ l, p.2 ≠ v) →
      ((alistUpsert k v l).map Prod.snd).Nodup := by
  intro l
  induction l with
  | nil => simp [alistUpsert]
  | cons p t ih =>
    intro hnd hne
    by_cases h : p.1 = k
    · simp only [alistUpsert, if_pos h, List.map_cons]
      refine List.Nodup.cons ?_ (by simpa using hnd.of_cons)
      intro hv
      rcases List.mem_map.mp hv with ⟨q, hq, hq2⟩
      exact hne q (List.mem_cons_of_mem _ hq) hq2
    · simp only [alistUpsert, if_neg h, List.map_cons]
      refine List.Nodup.cons ?_ (ih (by simpa using hnd.of_cons)
        (fun q hq => hne q (List.mem_cons_of_mem _ hq)))
      intro hv
      rcases List.mem_map.mp hv with ⟨q, hq, hq2⟩
      rcases mem_alistUpsert hq with hq3 | hq3
      · exact hne p (List.mem_cons_self p t) (by rw [← hq2, hq3])
      · have : p.2 ∈ t.map Prod.snd := hq2 ▸ List.mem_map_of_mem Prod.snd hq3
        simp only [List.map_cons, List.nodup_cons] at hnd
        exact hnd.1 this

theorem nodup_append_singleton {α : Type} {l : List α} {a : α}
    (h : l.Nodup) (ha : a ∉ l) : (l ++ [a]).Nodup := by
  simp [List.nodup_append, h, ha]

theorem filter_key_length_le_one {α β : Type} [DecidableEq α] (nm : α) :
    ∀ l : List (α × β), (l.map Prod.fst).Nodup →
      (l.filter (fun p => p.1 = nm)).length ≤ 1 := by
  intro l
  induction l with
  | nil => simp
  | cons p t ih =>
    intro hnd
    simp only [List.map_cons, List.nodup_cons] at hnd
    by_cases h : p.1 = nm
    · have hnil : t.filter (fun p => decide (p.1 = nm)) = [] := by
        apply List.filter_eq_nil_iff.mpr
        intro q hq
        simp only [decide_eq_true_eq]
        intro hq2
        have hmem : nm ∈ t.map Prod.fst := hq2 ▸ List.mem_map_of_mem Prod.fst hq
        exact hnd.1 (h.symm ▸ hmem)
      simp [List.filter_cons, h, hnil]
    · simp only [List.filter_cons, decide_eq_true_eq, if_neg h]
      exact ih hnd.2

/-! ### Decimal representation: roundtrip and injectivity -/

/-- Recompose a most-significant-first digit list. -/
def ofDigits (l : List Nat) : Nat :=
  l.foldl (fun a d => 10 * a + d) 0

theorem natDigitsAux_eq_of_le :
    ∀ (n fuel1 fuel2 : Nat), n ≤ fuel1 → n ≤ fuel2 →
      natDigitsAux fuel1 n = natDigitsAux fuel2 n := by
  intro n
  induction n using Nat.strong_induction_on with
  | _ n ih =>
    intro fuel1 fuel2 h1 h2
    match fuel1, fuel2 with
    | 0, 0 => rfl
    | 0, f2+1 =>
      have hn : n = 0 := by omega
      subst hn
      simp [natDigitsAux]
    | f1+1, 0 =>
      have hn : n = 0 := by omega
      subst hn
      simp [natDigitsAux]
    | f1+1, f2+1 =>
      simp only [natDigitsAux]
      by_cases hn : n < 10
      · simp [hn]
      · simp only [if_neg hn]
        have hlt : n / 10 < n := Nat.div_lt_self (by omega) (by omega)
        rw [ih (n / 10) hlt f1 f2 (by omega) (by omega)]

theorem natDigits_eq (n : Nat) :
    natDigits n = if n < 10 then [n] else natDigits (n / 10) ++ [n % 10] := by
  unfold natDigits
  by_cases h : n < 10
  · rw [if_pos h]
    cases n with
    | zero => rfl
    | succ m => simp [natDigitsAux, h]
  · rw [if_neg h]
    cases n with
    | zero => omega
    | succ m =>
      simp only [natDigitsAux, if_neg h]
      have hle : (m + 1) / 10 ≤ m := by omega
      rw [natDigitsAux_eq_of_le ((m + 1) / 10) m ((m + 1) / 10) hle (Nat.le_refl _)]

theorem ofDigits_natDigits : ∀ n : Nat, ofDigits (natDigits n) = n := by
  intro n
  induction n using Nat.strong_induction_on with
  | _ n ih =>
    rw [natDigits_eq]
    split
    · simp [ofDigits]
    · rename_i h
      have hlt : n / 10 < n := Nat.div_lt_self (by omega) (by omega)
      have hih := ih (n / 10) hlt
      unfold ofDigits at hih ⊢
      rw [List.foldl_append, hih]
      simp only [List.foldl_cons, List.foldl_nil]
      omega

theorem natDigits_lt_ten : ∀ n : Nat, ∀ d ∈ natDigits n, d < 10 := by
  intro n
  induction n using Nat.strong_induction_on with
  | _ n ih =>
    rw [natDigits_eq]
    split
    · rename_i h
      intro d hd
      simp at hd
      omega
    · rename_i h
      intro d hd
      rw [List.mem_append] at hd
      rcases hd with hd | hd
      · exact ih (n / 10) (Nat.div_lt_self (by omega) (by omega)) d hd
      · simp at hd
        omega

theorem natDigits_injective {m n : Nat} (h : natDigits m = natDigits n) : m = n := by
  have := congrArg ofDigits h
  rwa [ofDigits_natDigits, ofDigits_natDigits] at this

/-- Reverse of `digitChar` on actual digits. -/
def charToDigit (ch : Char) : Nat :=
  ch.toNat - 48

theorem charToDigit_digitChar {d : Nat} (h : d < 10) : charToDigit (digitChar d) = d := by
  interval_cases d <;> decide

theorem digitChar_ne_quote (d : Nat) : digitChar d ≠ '"' := by
  unfold digitChar
  split <;> decide

/-! ### String folding helpers and label structure -/

theorem foldl_str_factor {α : Type} (st : String → α → String)
    (hst : ∀ (a b : String) (x : α), st (a ++ b) x = a ++ st b x) :
    ∀ (l : List α) (a : String), l.foldl st a = a ++ l.foldl st "" := by
  intro l
  induction l with
  | nil => intro a; simp
  | cons x t ih =>
    intro a
    simp only [List.foldl_cons]
    rw [ih (st a x), ih (st "" x)]
    have h1 : st a x = a ++ st "" x := by
      have h2 := hst a "" x
      rwa [String.append_empty] at h2
    rw [h1, String.append_assoc]

theorem strConcat_cons (a : String) (l : List String) :
    strConcat (a :: l) = a ++ strConcat l := by
  unfold strConcat
  simp only [List.foldl_cons]
  rw [foldl_str_factor (fun x y => x ++ y) (fun a b x => String.append_assoc a b x) l ("" ++ a)]
  simp

theorem fields_foldl_eq (l : List String) :
    ∀ a : String, l.foldl (fun acc x => acc ++ x ++ "\\l") a
      = a ++ strConcat (l.map (fun x => x ++ "\\l")) := by
  induction l with
  | nil => intro a; simp [strConcat]
  | cons x t ih =>
    intro a
    simp only [List.foldl_cons, List.map_cons]
    rw [ih, strConcat_cons]
    simp [String.append_assoc]

/-- The contribution of one method name to the label body: the field
block (for a method named with the init convention), nothing (other
double-underscore methods), or a method entry. -/
def methodPiece (node : ClassDef) (method : String) : String :=
  if method = "__init__" then
    strConcat ((initAttrSet node).map (fun a => a ++ "\\l")) ++ "| "
  else if strStartsWith method "__" then ""
  else method ++ "()\\l"

theorem class_label_fold (node : ClassDef) :
    ∀ (ms : List String) (a : String),
      ms.foldl (fun atr_list method =>
        if method = "__init__" then
          ((initAttrSet node).foldl (fun acc x => acc ++ x ++ "\\l") atr_list) ++ "| "
        else if strStartsWith method "__" then atr_list
        else atr_list ++ method ++ "()\\l") a
      = a ++ strConcat (ms.map (methodPiece node)) := by
  intro ms
  induction ms with
  | nil => intro a; simp [strConcat]
  | cons m t ih =>
    intro a
    simp only [List.foldl_cons, List.map_cons]
    have hstep : (if m = "__init__" then
          ((initAttrSet node).foldl (fun acc x => acc ++ x ++ "\\l") a) ++ "| "
        else if strStartsWith m "__" then a
        else a ++ m ++ "()\\l") = a ++ methodPiece node m := by
      unfold methodPiece
      by_cases h1 : m = "__init__"
      · simp only [if_pos h1]
        rw [fields_foldl_eq, String.append_assoc]
      · by_cases h2 : strStartsWith m "__"
        · simp [h1, h2]
        · simp [h1, h2, String.append_assoc]
    rw [hstep, ih, strConcat_cons, String.append_assoc]

theorem class_label_eq (k : Nat) (node : ClassDef) :
    class_label k node
      = "\"" ++ natRepr k ++ "\" [label=\"\x7b" ++ node.name ++ "| "
        ++ strConcat ((methodNames node).map (methodPiece node))
        ++ "\x7d\", shape=\"record\"]" := by
  unfold class_label
  dsimp only
  rw [class_label_fold]

theorem class_label_data (k : Nat) (node : ClassDef) :
    (class_label k node).data
      = '"' :: ((natDigits k).map digitChar
          ++ '"' :: (" [label=\"\x7b" ++ node.name ++ "| "
              ++ strConcat ((methodNames node).map (methodPiece node))
              ++ "\x7d\", shape=\"record\"]").data) := by
  rw [class_label_eq]
  simp only [String.data_append, natRepr, List.append_assoc]
  rfl

/-- Parse the ordinal back out of a node-label string: the decimal
digits between the opening quote and the following quote. -/
def counterOf (s : String) : Nat :=
  ofDigits (((s.data.drop 1).takeWhile (fun ch => ch != '"')).map charToDigit)

theorem takeWhile_append_quote :
    ∀ (l r : List Char), (∀ ch ∈ l, ch ≠ '"') →
      (l ++ '"' :: r).takeWhile (fun ch => ch != '"') = l := by
  intro l r
  induction l with
  | nil => intro h; simp [List.takeWhile_cons]
  | cons a t ih =>
    intro h
    have ha : a ≠ '"' := h a (List.mem_cons_self a t)
    simp [List.takeWhile_cons, ha, bne_iff_ne,
      ih (fun ch hch => h ch (List.mem_cons_of_mem _ hch))]

theorem counterOf_class_label (k : Nat) (node : ClassDef) :
    counterOf (class_label k node) = k := by
  unfold counterOf
  rw [class_label_data]
  simp only [List.drop_succ_cons, List.drop_zero]
  have hq : ∀ ch ∈ (natDigits k).map digitChar, ch ≠ '"' := by
    intro ch hch
    rcases List.mem_map.mp hch with ⟨d, _, hdc⟩
    exact hdc ▸ digitChar_ne_quote d
  rw [takeWhile_append_quote _ _ hq, List.map_map]
  rw [List.map_congr_left (fun d hd => by
    simp only [Function.comp_apply]
    exact charToDigit_digitChar (natDigits_lt_ten k d hd))]
  rw [List.map_id']
  exact ofDigits_natDigits k

theorem class_label_inj_counter {k1 k2 : Nat} {c1 c2 : ClassDef}
    (h : class_label k1 c1 = class_label k2 c2) : k1 = k2 := by
  have h2 := congrArg counterOf h
  rwa [counterOf_class_label, counterOf_class_label] at h2

/-! ### Field-level characterizations of the visitor steps -/

theorem foldl_depgRel_proj (nm : String) :
    ∀ (ids : List String) (st : VisitorState),
      ids.foldl (fun st2 idv => { st2 with depgRelation := alistUpsert nm idv st2.depgRelation }) st
      = { st with depgRelation :=
            ids.foldl (fun acc idv => alistUpsert nm idv acc) st.depgRelation } := by
  intro ids
  induction ids with
  | nil => intro st; rfl
  | cons i t ih =>
    intro st
    simp only [List.foldl_cons]
    rw [ih]

theorem class_info_counter (s : VisitorState) (c : ClassDef) :
    (class_info s c).counter = s.counter + 1 := by
  unfold class_info add_dependency
  dsimp only
  rw [foldl_depgRel_proj]

theorem class_info_depgraph (s : VisitorState) (c : ClassDef) :
    (class_info s c).depgraph =
      (match alistLookup s.cur_module_name s.depgraph with
      | some lst => alistUpsert s.cur_module_name
          (setInsert lst (class_label s.counter c)) s.depgraph
      | none => s.depgraph ++ [(s.cur_module_name, [class_label s.counter c])]) := by
  unfold class_info add_dependency
  dsimp only
  rw [foldl_depgRel_proj]

theorem class_info_num_to_class (s : VisitorState) (c : ClassDef) :
    (class_info s c).num_to_class = alistUpsert c.name s.counter s.num_to_class := by
  unfold class_info add_dependency
  dsimp only
  rw [foldl_depgRel_proj]

theorem class_info_verb_list (s : VisitorState) (c : ClassDef) :
    (class_info s c).verb_list
      = alistUpsert ((s.counter : Int)) ([] : List String) s.verb_list := by
  unfold class_info add_dependency
  dsimp only
  rw [foldl_depgRel_proj]

theorem class_info_depgRelation (s : VisitorState) (c : ClassDef) :
    (class_info s c).depgRelation
      = (simpleBaseIds c).foldl (fun acc idv => alistUpsert c.name idv acc) s.depgRelation := by
  unfold class_info add_dependency
  dsimp only
  rw [foldl_depgRel_proj]

theorem class_info_cur_module (s : VisitorState) (c : ClassDef) :
    (class_info s c).cur_module_name = s.cur_module_name := by
  unfold class_info add_dependency
  dsimp only
  rw [foldl_depgRel_proj]

theorem class_info_import_relation (s : VisitorState) (c : ClassDef) :
    (class_info s c).import_relation = s.import_relation := by
  unfold class_info add_dependency
  dsimp only
  rw [foldl_depgRel_proj]

theorem import_info_same (s : VisitorState) (x : String) :
    (import_info s x).depgraph = s.depgraph
    ∧ (import_info s x).counter = s.counter
    ∧ (import_info s x).num_to_class = s.num_to_class
    ∧ (import_info s x).verb_list = s.verb_list
    ∧ (import_info s x).depgRelation = s.depgRelation
    ∧ (import_info s x).cur_module_name = s.cur_module_name := by
  unfold import_info
  split
  · exact ⟨rfl, rfl, rfl, rfl, rfl, rfl⟩
  · dsimp only
    split
    · exact ⟨rfl, rfl, rfl, rfl, rfl, rfl⟩
    · exact ⟨rfl, rfl, rfl, rfl, rfl, rfl⟩

theorem attribute_info_same (s : VisitorState) (a : String) :
    (attribute_info s a).depgraph = s.depgraph
    ∧ (attribute_info s a).counter = s.counter
    ∧ (attribute_info s a).num_to_class = s.num_to_class
    ∧ (attribute_info s a).import_relation = s.import_relation
    ∧ (attribute_info s a).depgRelation = s.depgRelation
    ∧ (attribute_info s a).cur_module_name = s.cur_module_name := by
  unfold attribute_info
  dsimp only
  split
  · exact ⟨rfl, rfl, rfl, rfl, rfl, rfl⟩
  · exact ⟨rfl, rfl, rfl, rfl, rfl, rfl⟩

theorem attribute_info_verb_list (s : VisitorState) (a : String) :
    ((attribute_info s a).verb_list = s.verb_list
      ∧ a ∈ (alistLookup ((s.counter : Int) - 1) s.verb_list).getD [])
    ∨ ∃ vl, (alistLookup ((s.counter : Int) - 1) s.verb_list).getD [] = vl
        ∧ a ∉ vl
        ∧ (attribute_info s a).verb_list
            = alistUpsert ((s.counter : Int) - 1) (vl ++ [a]) s.verb_list := by
  unfold attribute_info
  dsimp only
  split
  · rename_i hmem
    exact Or.inl ⟨rfl, hmem⟩
  · rename_i hmem
    exact Or.inr ⟨_, rfl, hmem, rfl⟩

theorem countClass_cons (n : Node) (t : List Node) :
    countClass (n :: t) = countClass [n] + countClass t := by
  cases n <;> simp [countClass, List.countP_cons, Nat.add_comm]

/-! ### Run-level invariants -/

/-- A stored node label was built by `class_info` at some earlier value
of the ordinal counter. -/
def labelGood (cnt : Nat) (lab : String) : Prop :=
  ∃ k c, k < cnt ∧ lab = class_label k c

theorem labelGood_mono {cnt cnt2 : Nat} {lab : String} (h : labelGood cnt lab)
    (hle : cnt ≤ cnt2) : labelGood cnt2 lab := by
  obtain ⟨k, c, hk, hl⟩ := h
  exact ⟨k, c, by omega, hl⟩

/-- Total number of stored labels in the dependency graph. -/
def depSize (g : List (Option String × List String)) : Nat :=
  (g.map (fun p => p.2.length)).sum

theorem depSize_cons (p : Option String × List String) (t : List (Option String × List String)) :
    depSize (p :: t) = p.2.length + depSize t := by
  simp [depSize]

theorem depSize_append_single (g : List (Option String × List String))
    (m : Option String) (lab : String) :
    depSize (g ++ [(m, [lab])]) = depSize g + 1 := by
  simp [depSize]

theorem depSize_upsert {m : Option String} {lst : List String} (x : String) :
    ∀ g : List (Option String × List String), alistLookup m g = some lst →
      depSize (alistUpsert m (lst ++ [x]) g) = depSize g + 1 := by
  intro g
  induction g with
  | nil => intro h; simp [alistLookup] at h
  | cons p t ih =>
    intro h
    by_cases hp : p.1 = m
    · have hp2 : p.2 = lst := by simpa [alistLookup, hp] using h
      simp only [alistUpsert, if_pos hp]
      rw [depSize_cons, depSize_cons, hp2]
      simp only [List.length_append, List.length_cons, List.length_nil]
      omega
    · have h2 : alistLookup m t = some lst := by simpa [alistLookup, hp] using h
      simp only [alistUpsert, if_neg hp]
      rw [depSize_cons, depSize_cons, ih h2]
      omega

theorem class_info_depgraph_found (s : VisitorState) (c : ClassDef) (lst : List String)
    (hfind : alistLookup s.cur_module_name s.depgraph = some lst) :
    (class_info s c).depgraph
      = alistUpsert s.cur_module_name (setInsert lst (class_label s.counter c)) s.depgraph := by
  rw [class_info_depgraph, hfind]

theorem class_info_depgraph_notfound (s : VisitorState) (c : ClassDef)
    (hfind : alistLookup s.cur_module_name s.depgraph = none) :
    (class_info s c).depgraph
      = s.depgraph ++ [(s.cur_module_name, [class_label s.counter c])] := by
  rw [class_info_depgraph, hfind]

theorem foldl_upsert_fst_nodup (nm : String) :
    ∀ (ids : List String) (l : List (String × String)),
      (l.map Prod.fst).Nodup →
      ((ids.foldl (fun acc idv => alistUpsert nm idv acc) l).map Prod.fst).Nodup := by
  intro ids
  induction ids with
  | nil => intro l h; exact h
  | cons i t ih =>
    intro l h
    simp only [List.foldl_cons]
    exact ih _ (alistUpsert_fst_nodup nm i l h)

/-- Invariant maintained by every `ImportVisitor` run: stored labels
come from earlier counter values, every assigned ordinal has an
attribute-usage entry, attribute-usage lists are duplicate free,
assigned ordinals are distinct and below the counter, and the
inheritance map has one entry per class name. -/
def StateInv (s : VisitorState) : Prop :=
  (∀ p ∈ s.depgraph, ∀ lab ∈ p.2, labelGood s.counter lab)
  ∧ (∀ k : Nat, k < s.counter → ∃ l, alistLookup ((k : Int)) s.verb_list = some l)
  ∧ (∀ p ∈ s.verb_list, p.2.Nodup)
  ∧ (s.num_to_class.map Prod.snd).Nodup
  ∧ (∀ p ∈ s.num_to_class, p.2 < s.counter)
  ∧ (s.depgRelation.map Prod.fst).Nodup

theorem visit_step (s : VisitorState) (n : Node) (h : StateInv s) :
    StateInv (visit s n)
    ∧ depSize (visit s n).depgraph = depSize s.depgraph + countClass [n]
    ∧ (visit s n).counter = s.counter + countClass [n] := by
  obtain ⟨hdep, hvk, hvn, hn2, hbound, hdgr⟩ := h
  cases n with
  | importFrom x rest =>
    simp only [visit]
    obtain ⟨e1, e2, e3, e4, e5, e6⟩ := import_info_same s x
    refine ⟨?_, ?_, ?_⟩
    · unfold StateInv
      rw [e1, e2, e3, e4, e5]
      exact ⟨hdep, hvk, hvn, hn2, hbound, hdgr⟩
    · rw [e1]; simp [countClass]
    · rw [e2]; simp [countClass]
  | classNode c =>
    simp only [visit]
    have hcnt := class_info_counter s c
    have hn2c := class_info_num_to_class s c
    have hvl := class_info_verb_list s c
    have hrel := class_info_depgRelation s c
    have hone : countClass [Node.classNode c] = 1 := by simp [countClass]
    rw [hone]
    have hverbKeys : ∀ k : Nat, k < (class_info s c).counter →
        ∃ l, alistLookup ((k : Int)) (class_info s c).verb_list = some l := by
      intro k hk
      rw [hcnt] at hk
      rw [hvl]
      by_cases hke : k = s.counter
      · subst hke
        exact ⟨[], alistLookup_upsert_self _ _ _⟩
      · rw [alistLookup_upsert_ne _ _ _ (by omega) _]
        exact hvk k (by omega)
    have hverbNodup : ∀ p ∈ (class_info s c).verb_list, p.2.Nodup := by
      intro p hp
      rw [hvl] at hp
      rcases mem_alistUpsert hp with hp1 | hp1
      · rw [hp1]; simp
      · exact hvn p hp1
    have hn2Nodup : ((class_info s c).num_to_class.map Prod.snd).Nodup := by
      rw [hn2c]
      exact alistUpsert_snd_nodup _ _ _ hn2 (fun p hp => Nat.ne_of_lt (hbound p hp))
    have hn2Bound : ∀ p ∈ (class_info s c).num_to_class, p.2 < (class_info s c).counter := by
      intro p hp
      rw [hn2c] at hp
      rw [hcnt]
      rcases mem_alistUpsert hp with hp1 | hp1
      · rw [hp1]; omega
      · exact Nat.lt_succ_of_lt (hbound p hp1)
    have hrelNodup : ((class_info s c).depgRelation.map Prod.fst).Nodup := by
      rw [hrel]
      exact foldl_upsert_fst_nodup _ _ _ hdgr
    cases hfind : alistLookup s.cur_module_name s.depgraph with
    | some lst =>
      have hmem0 : (s.cur_module_name, lst) ∈ s.depgraph := alistLookup_mem hfind
      have hfresh : class_label s.counter c ∉ lst := by
        intro hmem
        obtain ⟨k, c2, hk, hl⟩ := hdep _ hmem0 _ hmem
        have := class_label_inj_counter hl
        omega
      have hset : setInsert lst (class_label s.counter c) = lst ++ [class_label s.counter c] := by
        simp [setInsert, hfresh]
      have hdg := class_info_depgraph_found s c lst hfind
      rw [hset] at hdg
      refine ⟨⟨?_, hverbKeys, hverbNodup, hn2Nodup, hn2Bound, hrelNodup⟩, ?_, ?_⟩
      · intro p hp lab hlab
        rw [hcnt]
        rw [hdg] at hp
        rcases mem_alistUpsert hp with hp1 | hp1
        · rw [hp1] at hlab
          simp only [List.mem_append, List.mem_singleton] at hlab
          rcases hlab with hlab | hlab
          · exact labelGood_mono (hdep _ hmem0 _ hlab) (by omega)
          · exact ⟨s.counter, c, by omega, hlab⟩
        · exact labelGood_mono (hdep _ hp1 _ hlab) (by omega)
      · rw [hdg]
        exact depSize_upsert _ _ hfind
      · rw [hcnt]
    | none =>
      have hdg := class_info_depgraph_notfound s c hfind
      refine ⟨⟨?_, hverbKeys, hverbNodup, hn2Nodup, hn2Bound, hrelNodup⟩, ?_, ?_⟩
      · intro p hp lab hlab
        rw [hcnt]
        rw [hdg] at hp
        rcases List.mem_append.mp hp with hp1 | hp1
        · exact labelGood_mono (hdep _ hp1 _ hlab) (by omega)
        · simp only [List.mem_singleton] at hp1
          rw [hp1] at hlab
          simp only [List.mem_singleton] at hlab
          exact ⟨s.counter, c, by omega, hlab⟩
      · rw [hdg]
        exact depSize_append_single _ _ _
      · rw [hcnt]
  | attributeNode a =>
    simp only [visit]
    obtain ⟨e1, e2, e3, e4, e5, e6⟩ := attribute_info_same s a
    have hverb : (∀ k : Nat, k < (attribute_info s a).counter →
          ∃ l, alistLookup ((k : Int)) (attribute_info s a).verb_list = some l)
        ∧ (∀ p ∈ (attribute_info s a).verb_list, p.2.Nodup) := by
      rcases attribute_info_verb_list s a with ⟨hsame, _⟩ | ⟨vl, hvl, hnotin, hnew⟩
      · rw [hsame, e2]
        exact ⟨hvk, hvn⟩
      · have hvlNodup : vl.Nodup := by
          cases hl : alistLookup ((s.counter : Int) - 1) s.verb_list with
          | some l0 =>
            have : vl = l0 := by rw [hl] at hvl; simpa using hvl.symm
            rw [this]
            exact hvn _ (alistLookup_mem hl)
          | none =>
            have : vl = [] := by rw [hl] at hvl; simpa using hvl.symm
            rw [this]
            simp
        constructor
        · intro k hk
          rw [e2] at hk
          rw [hnew]
          by_cases hke : ((k : Int)) = (s.counter : Int) - 1
          · rw [hke]
            exact ⟨vl ++ [a], alistLookup_upsert_self _ _ _⟩
          · rw [alistLookup_upsert_ne _ _ _ hke _]
            exact hvk k hk
        · intro p hp
          rw [hnew] at hp
          rcases mem_alistUpsert hp with hp1 | hp1
          · rw [hp1]
            exact nodup_append_singleton hvlNodup hnotin
          · exact hvn p hp1
    refine ⟨⟨?_, hverb.1, hverb.2, ?_, ?_, ?_⟩, ?_, ?_⟩
    · rw [e1, e2]; exact hdep
    · rw [e3]; exact hn2
    · rw [e3, e2]; exact hbound
    · rw [e5]; exact hdgr
    · rw [e1]; simp [countClass]
    · rw [e2]; simp [countClass]
  | setModule m =>
    refine ⟨⟨hdep, hvk, hvn, hn2, hbound, hdgr⟩, ?_, ?_⟩ <;> simp [visit, countClass]
  | otherNode =>
    refine ⟨⟨hdep, hvk, hvn, hn2, hbound, hdgr⟩, ?_, ?_⟩ <;> simp [visit, countClass]

theorem stateInv_init (pn : String) : StateInv (initState pn) := by
  refine ⟨?_, ?_, ?_, ?_, ?_, ?_⟩ <;> simp [initState, alistLookup]

theorem run_step_aux : ∀ (ns : List Node) (s : VisitorState), StateInv s →
    StateInv (ns.foldl visit s)
    ∧ depSize (ns.foldl visit s).depgraph = depSize s.depgraph + countClass ns
    ∧ (ns.foldl visit s).counter = s.counter + countClass ns := by
  intro ns
  induction ns with
  | nil => intro s h; refine ⟨h, ?_, ?_⟩ <;> simp [countClass]
  | cons n t ih =>
    intro s h
    simp only [List.foldl_cons]
    obtain ⟨h1, h2, h3⟩ := visit_step s n h
    obtain ⟨g1, g2, g3⟩ := ih (visit s n) h1
    have hc := countClass_cons n t
    refine ⟨g1, ?_, ?_⟩
    · omega
    · omega

theorem run_stateInv (pn : String) (ns : List Node) : StateInv (runVisitor pn ns) :=
  (run_step_aux ns (initState pn) (stateInv_init pn)).1

theorem run_depSize (pn : String) (ns : List Node) :
    depSize (runVisitor pn ns).depgraph = countClass ns := by
  have h := (run_step_aux ns (initState pn) (stateInv_init pn)).2.1
  simpa [runVisitor, initState, depSize] using h

theorem run_counter (pn : String) (ns : List Node) :
    (runVisitor pn ns).counter = countClass ns := by
  have h := (run_step_aux ns (initState pn) (stateInv_init pn)).2.2
  simpa [runVisitor, initState] using h

theorem print_classes_inner_length :
    ∀ (ds acc2 : List String),
      (ds.foldl (fun acc2 d => acc2 ++ [fix d ++ ";\n"]) acc2).length
        = acc2.length + ds.length := by
  intro ds
  induction ds with
  | nil => intro acc2; simp
  | cons d t ih =>
    intro acc2
    simp only [List.foldl_cons]
    rw [ih]
    simp only [List.length_append, List.length_cons, List.length_nil]
    omega

theorem print_classes_length (deps : List (Option String × List String)) :
    (print_classes deps).length = depSize deps := by
  unfold print_classes
  suffices h : ∀ (gs : List (Option String × List String)) (acc : List String),
      (gs.foldl (fun acc p => p.2.foldl (fun acc2 d => acc2 ++ [fix d ++ ";\n"]) acc) acc).length
        = acc.length + depSize gs by
    simpa using h deps []
  intro gs
  induction gs with
  | nil => intro acc; simp [depSize]
  | cons p t ih =>
    intro acc
    simp only [List.foldl_cons]
    rw [ih, print_classes_inner_length, depSize_cons]
    omega

/-- The ordinal values the visitor assigns to the class declarations of
a run, in visitation order (the counter value at the moment each
class-declaration node is processed). -/
def ordinalTrace (pn : String) (ns : List Node) : List Nat :=
  (ns.foldl (fun p n =>
      (visit p.1 n,
        match n with
        | Node.classNode _ => p.2 ++ [p.1.counter]
        | _ => p.2))
    (initState pn, ([] : List Nat))).2

theorem ordinalTrace_aux :
    ∀ (ns : List Node) (s : VisitorState) (t : List Nat),
      (ns.foldl (fun p n =>
          (visit p.1 n,
            match n with
            | Node.classNode _ => p.2 ++ [p.1.counter]
            | _ => p.2)) (s, t)).2
      = t ++ List.range' s.counter (countClass ns) := by
  intro ns
  induction ns with
  | nil => intro s t; simp [countClass]
  | cons n rest ih =>
    intro s t
    simp only [List.foldl_cons]
    cases n with
    | classNode c =>
      rw [ih]
      simp only [visit, class_info_counter]
      rw [countClass_cons]
      have hone : countClass [Node.classNode c] = 1 := by simp [countClass]
      rw [hone, Nat.add_comm 1 (countClass rest), List.range'_succ]
      simp
    | importFrom x r =>
      rw [ih]
      simp only [visit, (import_info_same s x).2.1]
      rw [countClass_cons]
      have hz : countClass [Node.importFrom x r] = 0 := by simp [countClass]
      rw [hz]
      simp
    | attributeNode a =>
      rw [ih]
      simp only [visit, (attribute_info_same s a).2.1]
      rw [countClass_cons]
      have hz : countClass [Node.attributeNode a] = 0 := by simp [countClass]
      rw [hz]
      simp
    | setModule m =>
      rw [ih]
      simp only [visit]
      rw [countClass_cons]
      have hz : countClass [Node.setModule m] = 0 := by simp [countClass]
      rw [hz]
      simp
    | otherNode =>
      rw [ih]
      simp only [visit]
      rw [countClass_cons]
      have hz : countClass [Node.otherNode] = 0 := by simp [countClass]
      rw [hz]
      simp

theorem ordinalTrace_eq (pn : String) (ns : List Node) :
    ordinalTrace pn ns = List.range (countClass ns) := by
  unfold ordinalTrace
  rw [ordinalTrace_aux]
  simp [initState, List.range_eq_range']

/-! ### Renderer characterizations -/

/-- The contribution of one inheritance-map entry to the rendered
edges: nothing when the base is not in the ordinal map, otherwise the
edge from the derived ordinal to the base ordinal. -/
def relEmit (order : List (String × Nat)) (p : String × String) : Option String :=
  match alistLookup p.2 order with
  | none => none
  | some tn =>
    match alistLookup p.1 order with
    | none => none
    | some gn => some (edgeLine gn tn)

theorem print_relations_aux (order : List (String × Nat)) :
    ∀ (rel : List (String × String)) (acc : List String),
      (∀ p ∈ rel, (alistLookup p.1 order).isSome = true) →
      rel.foldl (fun acc p =>
        match acc with
        | none => none
        | some lines =>
          match alistLookup p.2 order with
          | none => some lines
          | some tn =>
            match alistLookup p.1 order with
            | none => none
            | some gn => some (lines ++ [edgeLine gn tn])) (some acc)
      = some (acc ++ rel.filterMap (relEmit order)) := by
  intro rel
  induction rel with
  | nil => intro acc h; simp
  | cons p t ih =>
    intro acc h
    have hp := h p (List.mem_cons_self p t)
    have ht : ∀ q ∈ t, (alistLookup q.1 order).isSome = true :=
      fun q hq => h q (List.mem_cons_of_mem _ hq)
    simp only [List.foldl_cons]
    cases htake : alistLookup p.2 order with
    | none =>
      simp only [htake]
      rw [ih acc ht]
      simp [List.filterMap_cons, relEmit, htake]
    | some tn =>
      obtain ⟨gn, hgn⟩ := Option.isSome_iff_exists.mp hp
      simp only [htake, hgn]
      rw [ih (acc ++ [edgeLine gn tn]) ht]
      simp [List.filterMap_cons, relEmit, htake, hgn]

theorem print_relations_eq (rel : List (String × String)) (order : List (String × Nat))
    (h : ∀ p ∈ rel, (alistLookup p.1 order).isSome = true) :
    print_relations rel order = some (rel.filterMap (relEmit order)) := by
  unfold print_relations
  have h2 := print_relations_aux order rel [] h
  simpa using h2

theorem filterMap_relEmit_length (order : List (String × Nat)) :
    ∀ rel : List (String × String),
      (∀ p ∈ rel, (alistLookup p.1 order).isSome = true) →
      (rel.filterMap (relEmit order)).length
        = (rel.filter (fun p => (alistLookup p.2 order).isSome)).length := by
  intro rel
  induction rel with
  | nil => intro h; simp
  | cons p t ih =>
    intro h
    have hp := h p (List.mem_cons_self p t)
    have ht : ∀ q ∈ t, (alistLookup q.1 order).isSome = true :=
      fun q hq => h q (List.mem_cons_of_mem _ hq)
    cases htake : alistLookup p.2 order with
    | none => simp [List.filterMap_cons, List.filter_cons, relEmit, htake, ih ht]
    | some tn =>
      obtain ⟨gn, hgn⟩ := Option.isSome_iff_exists.mp hp
      simp [List.filterMap_cons, List.filter_cons, relEmit, htake, hgn, ih ht]

theorem print_relations_stays_none (order : List (String × Nat)) :
    ∀ rel : List (String × String),
      rel.foldl (fun acc p =>
        match acc with
        | none => none
        | some lines =>
          match alistLookup p.2 order with
          | none => some lines
          | some tn =>
            match alistLookup p.1 order with
            | none => none
            | some gn => some (lines ++ [edgeLine gn tn])) none
      = none := by
  intro rel
  induction rel with
  | nil => rfl
  | cons p t ih => simpa using ih

theorem print_relations_length_aux (order : List (String × Nat)) :
    ∀ (rel : List (String × String)) (acc lines : List String),
      rel.foldl (fun acc p =>
        match acc with
        | none => none
        | some lines =>
          match alistLookup p.2 order with
          | none => some lines
          | some tn =>
            match alistLookup p.1 order with
            | none => none
            | some gn => some (lines ++ [edgeLine gn tn])) (some acc)
        = some lines →
      lines.length ≤ acc.length + rel.length := by
  intro rel
  induction rel with
  | nil =>
    intro acc lines h
    simp only [List.foldl_nil, Option.some.injEq] at h
    simp [← h]
  | cons p t ih =>
    intro acc lines h
    simp only [List.foldl_cons] at h
    cases htake : alistLookup p.2 order with
    | none =>
      rw [htake] at h
      have := ih acc lines h
      simp only [List.length_cons]
      omega
    | some tn =>
      rw [htake] at h
      cases hgive : alistLookup p.1 order with
      | none =>
        rw [hgive] at h
        rw [print_relations_stays_none] at h
        exact absurd h (by simp)
      | some gn =>
        rw [hgive] at h
        have := ih (acc ++ [edgeLine gn tn]) lines h
        simp only [List.length_append, List.length_cons, List.length_nil] at this ⊢
        omega

/-- The contribution of one import-map entry to the rendered edges. -/
def impEmit (order : List (String × Nat)) (p : Nat × List String) : List String :=
  p.2.filterMap (fun item =>
    match alistLookup item order with
    | some o => some (edgeLine o p.1)
    | none => none)

theorem imp_inner_aux (order : List (String × Nat)) (num : Nat) :
    ∀ (lst : List String) (acc : List String),
      lst.foldl (fun acc2 item =>
        match alistLookup item order with
        | some o => acc2 ++ [edgeLine o num]
        | none => acc2) acc
      = acc ++ lst.filterMap (fun item =>
          match alistLookup item order with
          | some o => some (edgeLine o num)
          | none => none) := by
  intro lst
  induction lst with
  | nil => intro acc; simp
  | cons item t ih =>
    intro acc
    simp only [List.foldl_cons]
    cases hit : alistLookup item order with
    | none =>
      simp only [hit]
      rw [ih acc]
      simp [List.filterMap_cons, hit]
    | some o =>
      simp only [hit]
      rw [ih (acc ++ [edgeLine o num])]
      simp [List.filterMap_cons, hit]

theorem print_imp_relations_eq (rel : List (Nat × List String)) (order : List (String × Nat)) :
    print_imp_relations rel order = rel.flatMap (impEmit order) := by
  unfold print_imp_relations
  suffices h : ∀ (r : List (Nat × List String)) (acc : List String),
      r.foldl (fun acc p =>
        p.2.foldl (fun acc2 item =>
          match alistLookup item order with
          | some o => acc2 ++ [edgeLine o p.1]
          | none => acc2) acc) acc
      = acc ++ r.flatMap (impEmit order) by
    simpa using h rel []
  intro r
  induction r with
  | nil => intro acc; simp
  | cons p t ih =>
    intro acc
    simp only [List.foldl_cons]
    rw [imp_inner_aux, ih]
    simp [impEmit]

/-! ### Set-list membership and last-upsert lemmas -/

theorem mem_setInsert {l : List String} {x y : String} :
    y ∈ setInsert l x ↔ y ∈ l ∨ y = x := by
  unfold setInsert
  split
  · rename_i h
    constructor
    · exact Or.inl
    · intro h2
      rcases h2 with h2 | h2
      · exact h2
      · exact h2 ▸ h
  · simp [List.mem_append]

theorem mem_setOfList_aux : ∀ (l acc : List String) (x : String),
    x ∈ l.foldl setInsert acc ↔ x ∈ acc ∨ x ∈ l := by
  intro l
  induction l with
  | nil => intro acc x; simp
  | cons a t ih =>
    intro acc x
    simp only [List.foldl_cons]
    rw [ih, mem_setInsert, List.mem_cons]
    tauto

theorem mem_setOfList {l : List String} {x : String} : x ∈ setOfList l ↔ x ∈ l := by
  unfold setOfList
  rw [mem_setOfList_aux]
  simp

theorem alistLookup_foldl_upsert_last {α β : Type} [DecidableEq α] (k : α) :
    ∀ (vs : List β) (l : List (α × β)) (b : β), vs.getLast? = some b →
      alistLookup k (vs.foldl (fun acc v => alistUpsert k v acc) l) = some b := by
  intro vs
  induction vs with
  | nil => intro l b h; simp at h
  | cons v t ih =>
    intro l b h
    simp only [List.foldl_cons]
    cases t with
    | nil =>
      simp only [List.getLast?_singleton, Option.some.injEq] at h
      subst h
      simp only [List.foldl_nil]
      exact alistLookup_upsert_self k _ l
    | cons v2 t2 =>
      have h2 : (v2 :: t2).getLast? = some b := by rwa [List.getLast?_cons_cons] at h
      exact ih _ b h2

/-! ### The spec's wording of the field extraction (claim C2) -/

/-- Modelled from the spec: the field entries as the spec's claim C2
words them — the attribute-access names on `self` occurring inside the
method named with the init convention, whose names start with exactly
one leading underscore. -/
def specInitSelfFields (node : ClassDef) : List String :=
  setOfList (node.body.flatMap (fun it =>
    match it with
    | .funcDef nm attrs =>
      if nm = "__init__" then
        (attrs.filter (fun p => p.1 && strStartsWith p.2 "_" && !(strStartsWith p.2 "__"))).map Prod.snd
      else []
    | .stmt _ => []))

/-- Modelled from the spec: the node label claim C2 describes — the
same shape as `class_label`, but with the field block drawn from
`specInitSelfFields` instead of the whole-class attribute walk. -/
def spec_class_label (counter : Nat) (node : ClassDef) : String :=
  let start := "\"" ++ natRepr counter ++ "\" [label=\"\x7b" ++ node.name ++ "| "
  let withBody := (methodNames node).foldl
    (fun atr_list method =>
      if method = "__init__" then
        ((specInitSelfFields node).foldl (fun acc a => acc ++ a ++ "\\l") atr_list) ++ "| "
      else if strStartsWith method "__" then
        atr_list
      else
        atr_list ++ method ++ "()\\l")
    start
  withBody ++ "\x7d\", shape=\"record\"]"

/-! ### Concrete inputs used by witnesses and counterexamples -/

/-- A class whose init method assigns `self._x` while another method
`m` accesses `self._y`. -/
def c2cexClass : ClassDef :=
  { name := "C", bases := [],
    body := [ClassItem.funcDef "__init__" [(true, "_x")],
             ClassItem.funcDef "m" [(true, "_y")]] }

/-- A class declaration named `A` with no bases and an empty body. -/
def emptyAClass : ClassDef :=
  { name := "A", bases := [], body := [] }

/-- A class with the two simple-name bases `A` then `B`. -/
def twoBaseClass : ClassDef :=
  { name := "C", bases := [BaseExpr.named "A", BaseExpr.named "B"], body := [] }

/-- A class with one ordinary method `m`. -/
def mOnlyClass : ClassDef :=
  { name := "C", bases := [], body := [ClassItem.funcDef "m" []] }

/-! ### Claim theorems -/

/-- Claim C1: for every visited source tree with N class declarations,
the renderer emits exactly one record-shaped node line per declared
class (the rendered node count equals N), the visitor's final counter
is N, and the ordinals assigned to the declared classes form the
contiguous range 0..N-1 in visitation order. -/
theorem c1_node_count_ordinal_range (pn : String) (ns : List Node) :
    (print_classes (runVisitor pn ns).depgraph).length = countClass ns
    ∧ (runVisitor pn ns).counter = countClass ns
    ∧ ordinalTrace pn ns = List.range (countClass ns) := by
  refine ⟨?_, run_counter pn ns, ordinalTrace_eq pn ns⟩
  rw [print_classes_length, run_depSize]

/-- Claim C2 counterexample: in a class whose init method assigns
`self._x` while another method `m` accesses `self._y`, the code's field
set is `{_x, _y}` (because `class_info` walks the entire class
declaration, not just the init method), but the claim predicts only
`{_x}`; the generated label differs from the label the claim
describes. -/
theorem c2_counterexample :
    initAttrSet c2cexClass = ["_x", "_y"]
    ∧ specInitSelfFields c2cexClass = ["_x"]
    ∧ class_label 0 c2cexClass ≠ spec_class_label 0 c2cexClass := by
  refine ⟨?_, ?_, ?_⟩ <;> decide

/-- Claim C2 (amended): the label decomposes into a fixed prefix, one
piece per method in body order, and a fixed suffix; the field block,
emitted at each method named with the init convention, consists of
exactly the attribute-access names occurring anywhere in the class
declaration (any method or statement, any access target, duplicates
removed) that start with exactly one leading underscore; and every
method whose name does not start with a double underscore contributes
its name as a method entry. -/
theorem c2_amended_label (k : Nat) (node : ClassDef) :
    class_label k node
      = "\"" ++ natRepr k ++ "\" [label=\"\x7b" ++ node.name ++ "| "
        ++ strConcat ((methodNames node).map (methodPiece node))
        ++ "\x7d\", shape=\"record\"]"
    ∧ methodPiece node "__init__"
        = strConcat ((initAttrSet node).map (fun a => a ++ "\\l")) ++ "| "
    ∧ (∀ a : String, a ∈ initAttrSet node ↔
        (a ∈ classWalkAttrs node ∧ (strStartsWith a "_" && !(strStartsWith a "__")) = true))
    ∧ (∀ m : String, strStartsWith m "__" = false → methodPiece node m = m ++ "()\\l") := by
  refine ⟨class_label_eq k node, ?_, ?_, ?_⟩
  · unfold methodPiece
    simp
  · intro a
    unfold initAttrSet
    rw [mem_setOfList, List.mem_filter]
  · intro m hm
    have h1 : m ≠ "__init__" := by
      intro he
      rw [he] at hm
      exact absurd hm (by decide)
    unfold methodPiece
    simp [h1, hm]

/-- Claim C2 amended witness: a concrete non-dunder method contributes
its method entry. -/
theorem c2_amended_witness :
    methodPiece mOnlyClass "m" = "m" ++ "()\\l" :=
  (c2_amended_label 0 mOnlyClass).2.2.2 "m" (by decide)

/-- Claim C3: when every derived name in the inheritance map is itself
in the ordinal map (as the visitor guarantees), `print_relations`
succeeds and its output is exactly the per-entry filter-map: an entry
(derived, base) emits the edge from the derived ordinal to the base
ordinal (with the empty-arrowhead / no-arrowtail style of `edgeLine`)
precisely when base is a key of the ordinal map, and is silently
skipped otherwise, so the line count equals the number of entries
whose base resolves. -/
theorem c3_inheritance_edges (relation : List (String × String)) (order : List (String × Nat))
    (h : ∀ p ∈ relation, (alistLookup p.1 order).isSome = true) :
    ∃ lines, print_relations relation order = some lines
      ∧ lines = relation.filterMap (relEmit order)
      ∧ (∀ gv tk gn tn, (gv, tk) ∈ relation →
          alistLookup gv order = some gn → alistLookup tk order = some tn →
          edgeLine gn tn ∈ lines)
      ∧ lines.length = (relation.filter (fun p => (alistLookup p.2 order).isSome)).length
      ∧ (∀ l ∈ lines, ∃ a b, l = edgeLine a b) := by
  refine ⟨relation.filterMap (relEmit order), print_relations_eq relation order h, rfl,
    ?_, filterMap_relEmit_length order relation h, ?_⟩
  · intro gv tk gn tn hmem hg ht2
    exact List.mem_filterMap.mpr ⟨(gv, tk), hmem, by simp [relEmit, hg, ht2]⟩
  · intro l hl
    rcases List.mem_filterMap.mp hl with ⟨p, _, hemit⟩
    unfold relEmit at hemit
    cases h2 : alistLookup p.2 order with
    | none => rw [h2] at hemit; simp at hemit
    | some tn =>
      rw [h2] at hemit
      cases h1 : alistLookup p.1 order with
      | none => rw [h1] at hemit; simp at hemit
      | some gn =>
        rw [h1] at hemit
        simp only [Option.some.injEq] at hemit
        exact ⟨gn, tn, hemit.symm⟩

/-- Claim C3 witness at a concrete relation and ordinal map. -/
theorem c3_witness :
    ∃ lines, print_relations [("B", "A")] [("A", 0), ("B", 1)] = some lines :=
  Exists.elim (c3_inheritance_edges [("B", "A")] [("A", 0), ("B", 1)] (by decide))
    (fun lines hl => ⟨lines, hl.1⟩)

/-- Claim C4: `print_imp_relations` emits, for each entry
(ordinal, names) and each listed name, an edge precisely when the name
is a key of the ordinal map, directed from the imported class's
ordinal to the importing ordinal, and every emitted line has the same
`edgeLine` arrow style (arrowhead "empty", arrowtail "none") as the
inheritance edges. -/
theorem c4_import_edges (relation : List (Nat × List String)) (order : List (String × Nat)) :
    print_imp_relations relation order = relation.flatMap (impEmit order)
    ∧ (∀ num lst, (num, lst) ∈ relation → ∀ item ∈ lst, ∀ o,
        alistLookup item order = some o →
        edgeLine o num ∈ print_imp_relations relation order)
    ∧ (∀ l ∈ print_imp_relations relation order, ∃ a b, l = edgeLine a b) := by
  refine ⟨print_imp_relations_eq relation order, ?_, ?_⟩
  · intro num lst hmem item hitem o ho
    rw [print_imp_relations_eq]
    refine List.mem_flatMap.mpr ⟨(num, lst), hmem, ?_⟩
    unfold impEmit
    exact List.mem_filterMap.mpr ⟨item, hitem, by simp [ho]⟩
  · intro l hl
    rw [print_imp_relations_eq] at hl
    rcases List.mem_flatMap.mp hl with ⟨p, _, hl2⟩
    unfold impEmit at hl2
    rcases List.mem_filterMap.mp hl2 with ⟨item, _, hemit⟩
    cases hit : alistLookup item order with
    | none => rw [hit] at hemit; simp at hemit
    | some o =>
      rw [hit] at hemit
      simp only [Option.some.injEq] at hemit
      exact ⟨o, p.1, hemit.symm⟩

/-- Claim C4 witness at a concrete import map and ordinal map. -/
theorem c4_witness :
    edgeLine 2 5 ∈ print_imp_relations [(5, ["A"])] [("A", 2)] :=
  (c4_import_edges [(5, ["A"])] [("A", 2)]).2.1 5 ["A"] (by decide) "A" (by decide)
    2 (by decide)

/-- Claim C5: visiting an import-from node considers only the first
imported name; the visit is a no-op when the name starts with the
reserved marker, is entirely lowercase, is entirely uppercase, or is
the wildcard, and also when the name is already in the list keyed by
the current counter; otherwise the name is appended to that list and
every other key of the import map is untouched, as are all other state
fields. -/
theorem c5_import_from (s : VisitorState) (name0 : String) (rest1 rest2 : List String) :
    visit s (Node.importFrom name0 rest1) = visit s (Node.importFrom name0 rest2)
    ∧ ((strStartsWith name0 "Q" || pyIsLower name0 || pyIsUpper name0 || name0 == "*") = true →
        visit s (Node.importFrom name0 rest1) = s)
    ∧ ((strStartsWith name0 "Q" || pyIsLower name0 || pyIsUpper name0 || name0 == "*") = false →
        (name0 ∈ (alistLookup s.counter s.import_relation).getD [] →
          visit s (Node.importFrom name0 rest1) = s)
        ∧ (name0 ∉ (alistLookup s.counter s.import_relation).getD [] →
            alistLookup s.counter (visit s (Node.importFrom name0 rest1)).import_relation
              = some ((alistLookup s.counter s.import_relation).getD [] ++ [name0])
            ∧ (∀ k : Nat, k ≠ s.counter →
                alistLookup k (visit s (Node.importFrom name0 rest1)).import_relation
                  = alistLookup k s.import_relation)
            ∧ (visit s (Node.importFrom name0 rest1)).depgraph = s.depgraph
            ∧ (visit s (Node.importFrom name0 rest1)).counter = s.counter
            ∧ (visit s (Node.importFrom name0 rest1)).num_to_class = s.num_to_class
            ∧ (visit s (Node.importFrom name0 rest1)).verb_list = s.verb_list
            ∧ (visit s (Node.importFrom name0 rest1)).depgRelation = s.depgRelation)) := by
  refine ⟨rfl, ?_, ?_⟩
  · intro hc
    simp only [visit]
    unfold import_info
    simp [hc]
  · intro hc
    constructor
    · intro hmem
      simp only [visit]
      unfold import_info
      rw [if_neg (by simp [hc])]
      dsimp only
      rw [if_pos hmem]
    · intro hmem
      simp only [visit]
      unfold import_info
      rw [if_neg (by simp [hc])]
      dsimp only
      rw [if_neg hmem]
      exact ⟨alistLookup_upsert_self _ _ _,
        fun k hk => alistLookup_upsert_ne _ _ _ hk _, rfl, rfl, rfl, rfl, rfl⟩

/-- Claim C5 witness: importing a class-like name records it under the
current counter. -/
theorem c5_witness :
    alistLookup 0 (visit (initState "p")
      (Node.importFrom "Helper" [])).import_relation = some ["Helper"] := by
  have h := ((c5_import_from (initState "p") "Helper" [] []).2.2 (by decide)).2 (by decide)
  exact h.1

/-- Claim C6: a class declaration with at least one simple-name base
retains exactly the last simple-name base in the inheritance map; the
inheritance map built by a run has pairwise-distinct keys, so a class
name has at most one entry there, and `print_relations` emits at most
one line per entry — hence at most one inheritance edge per class. -/
theorem c6_single_base :
    (∀ (s : VisitorState) (c : ClassDef) (b : String),
        (simpleBaseIds c).getLast? = some b →
        alistLookup c.name (class_info s c).depgRelation = some b)
    ∧ (∀ (pn : String) (ns : List Node),
        (((runVisitor pn ns).depgRelation).map Prod.fst).Nodup)
    ∧ (∀ (rel : List (String × String)) (nm : String),
        (rel.map Prod.fst).Nodup → (rel.filter (fun p => p.1 = nm)).length ≤ 1)
    ∧ (∀ (rel : List (String × String)) (order : List (String × Nat)) (lines : List String),
        print_relations rel order = some lines → lines.length ≤ rel.length) := by
  refine ⟨?_, ?_, ?_, ?_⟩
  · intro s c b hb
    rw [class_info_depgRelation]
    exact alistLookup_foldl_upsert_last c.name (simpleBaseIds c) s.depgRelation b hb
  · intro pn ns
    exact (run_stateInv pn ns).2.2.2.2.2
  · intro rel nm hnd
    exact filter_key_length_le_one nm rel hnd
  · intro rel order lines h
    unfold print_relations at h
    have h2 := print_relations_length_aux order rel [] lines h
    simpa using h2

/-- Claim C6 witness: with bases `A` then `B`, only `B` is retained. -/
theorem c6_witness :
    alistLookup "C" (class_info (initState "p") twoBaseClass).depgRelation = some "B" :=
  c6_single_base.1 (initState "p") twoBaseClass "B" (by decide)

/-- Claim C7 counterexample: visiting two class declarations both
named `A` remaps `A` from ordinal 0 to ordinal 1, so a class name can
be remapped, contrary to the claim. -/
theorem c7_counterexample :
    alistLookup "A" (runVisitor "p" [Node.classNode emptyAClass]).num_to_class = some 0
    ∧ alistLookup "A" (runVisitor "p"
        [Node.classNode emptyAClass, Node.classNode emptyAClass]).num_to_class = some 1 := by
  exact ⟨rfl, rfl⟩

/-- Claim C7 (amended): the counter never decreases at a visit step
(and advances exactly at class declarations, see C1); the ordinal
values of the name-to-ordinal map are pairwise distinct and below the
counter at every reachable state, so the map is injective; and a class
declaration always maps its name to the current counter — the ordinal
of its most recent declaration.  Only the original claim's "no class
name is ever remapped" fails (a name is remapped when the same class
name is declared again). -/
theorem c7_amended :
    (∀ (s : VisitorState) (n : Node), s.counter ≤ (visit s n).counter)
    ∧ (∀ (pn : String) (ns : List Node),
        (((runVisitor pn ns).num_to_class).map Prod.snd).Nodup)
    ∧ (∀ (pn : String) (ns : List Node) (p : String × Nat),
        p ∈ (runVisitor pn ns).num_to_class → p.2 < (runVisitor pn ns).counter)
    ∧ (∀ (s : VisitorState) (c : ClassDef),
        alistLookup c.name (class_info s c).num_to_class = some s.counter) := by
  refine ⟨?_, ?_, ?_, ?_⟩
  · intro s n
    cases n with
    | importFrom x r =>
      simp only [visit]
      rw [(import_info_same s x).2.1]
    | classNode c =>
      simp only [visit]
      rw [class_info_counter]
      omega
    | attributeNode a =>
      simp only [visit]
      rw [(attribute_info_same s a).2.1]
    | setModule m => simp [visit]
    | otherNode => simp [visit]
  · intro pn ns
    exact (run_stateInv pn ns).2.2.2.1
  · intro pn ns p hp
    exact (run_stateInv pn ns).2.2.2.2.1 p hp
  · intro s c
    rw [class_info_num_to_class]
    exact alistLookup_upsert_self _ _ _

/-- Claim C7 amended witness: a concrete assigned ordinal is below the
counter. -/
theorem c7_amended_witness :
    (0 : Nat) < (runVisitor "p" [Node.classNode emptyAClass]).counter :=
  c7_amended.2.2.1 "p" [Node.classNode emptyAClass] ("A", 0) (by decide)

/-- Claim C8: the renderer is deterministic — two calls of `render` on
equal dependency graph, ordinal map, inheritance map and import map
produce identical textual graph descriptions. -/
theorem c8_render_deterministic
    (d1 d2 : List (Option String × List String)) (o1 o2 : List (String × Nat))
    (r1 r2 : List (String × String)) (i1 i2 : List (Nat × List String))
    (hd : d1 = d2) (ho : o1 = o2) (hr : r1 = r2) (hi : i1 = i2) :
    render d1 o1 r1 i1 = render d2 o2 r2 i2 := by
  subst hd
  subst ho
  subst hr
  subst hi
  rfl

/-- Claim C8 witness at concrete (empty) inputs. -/
theorem c8_witness : render [] [] [] [] = render [] [] [] [] :=
  c8_render_deterministic [] [] [] [] [] [] [] [] rfl rfl rfl rfl

/-- Claim C9: visiting an attribute-access node before any class
declaration (counter still 0) records the attribute name under key -1
of the attribute-usage map; assigned ordinals are always non-negative,
so -1 is never a valid class ordinal and the attribute-usage key set
need not be a subset of the assigned ordinals. -/
theorem c9_attribute_before_class (pn : String) (ns : List Node) (a : String)
    (h : countClass ns = 0) :
    (runVisitor pn ns).counter = 0
    ∧ (∃ l, alistLookup (-1 : Int)
          (visit (runVisitor pn ns) (Node.attributeNode a)).verb_list = some l ∧ a ∈ l)
    ∧ (∀ (pn2 : String) (ns2 : List Node) (p : String × Nat),
        p ∈ (runVisitor pn2 ns2).num_to_class → (0 : Int) ≤ ((p.2 : Nat) : Int)) := by
  have hc : (runVisitor pn ns).counter = 0 := by rw [run_counter, h]
  have hkey : (((runVisitor pn ns).counter : Int)) - 1 = -1 := by
    rw [hc]
    simp
  refine ⟨hc, ?_, ?_⟩
  · simp only [visit]
    rcases attribute_info_verb_list (runVisitor pn ns) a with ⟨hsame, hmem⟩ |
      ⟨vl, hvl, hnotin, hnew⟩
    · rw [hsame]
      rw [hkey] at hmem
      cases hl : alistLookup (-1 : Int) (runVisitor pn ns).verb_list with
      | none => rw [hl] at hmem; simp at hmem
      | some l0 =>
        rw [hl] at hmem
        exact ⟨l0, rfl, by simpa using hmem⟩
    · rw [hnew, hkey]
      exact ⟨vl ++ [a], alistLookup_upsert_self _ _ _, by simp⟩
  · intro pn2 ns2 p hp
    exact Int.natCast_nonneg p.2

/-- Claim C9 witness: on the empty run, visiting an attribute access
records it under key -1. -/
theorem c9_witness :
    (runVisitor "p" []).counter = 0
    ∧ (∃ l, alistLookup (-1 : Int)
        (visit (runVisitor "p" []) (Node.attributeNode "x")).verb_list
        = some l ∧ "x" ∈ l) := by
  have h := c9_attribute_before_class "p" [] "x" (by decide)
  exact ⟨h.1, h.2.1⟩

/-- Claim C10: processing a class declaration immediately gives its
ordinal (the pre-advance counter value) an attribute-usage entry
initialized to the empty list, before the counter advances by one;
every reachable state keeps an attribute-usage entry for every
assigned ordinal, and all attribute-usage lists are duplicate free. -/
theorem c10_attribute_usage_invariant :
    (∀ (s : VisitorState) (c : ClassDef),
        alistLookup ((s.counter : Int)) (class_info s c).verb_list = some []
        ∧ (class_info s c).counter = s.counter + 1)
    ∧ (∀ (pn : String) (ns : List Node) (k : Nat),
        k < (runVisitor pn ns).counter →
        ∃ l, alistLookup ((k : Int)) (runVisitor pn ns).verb_list = some l)
    ∧ (∀ (pn : String) (ns : List Node) (p : Int × List String),
        p ∈ (runVisitor pn ns).verb_list → p.2.Nodup) := by
  refine ⟨?_, ?_, ?_⟩
  · intro s c
    refine ⟨?_, class_info_counter s c⟩
    rw [class_info_verb_list]
    exact alistLookup_upsert_self _ _ _
  · intro pn ns k hk
    exact (run_stateInv pn ns).2.1 k hk
  · intro pn ns p hp
    exact (run_stateInv pn ns).2.2.1 p hp

/-- Claim C10 witness: after one class declaration, ordinal 0 has an
attribute-usage entry. -/
theorem c10_witness :
    ∃ l, alistLookup (((0 : Nat) : Int))
      (runVisitor "p" [Node.classNode emptyAClass]).verb_list = some l :=
  c10_attribute_usage_invariant.2.1 "p" [Node.classNode emptyAClass] 0 (by decide)

end UMLDiagram
